import Mathlib

/-!
Verification of the task-tracker core (bot/sheets.py, bot/app.py, bot/parser.py)
against its natural-language specification.

The Python source is shallowly embedded: each worksheet is modelled as the list
of its data records (the records returned by `get_all_records`, i.e. the rows
below the fixed header row), every cell value is a `String` (the sheet is
stringly typed), and each Python function over the sheet becomes a pure Lean
function over that list.  Sheet row numbers are 1-based with the header in
row 1, so the record at list index `i` sits in sheet row `i + 2`.
-/

namespace TgSheets

/-! ### Python string primitives

Python compares strings lexicographically by code point.  `listLe` is the
embedding of Python `<=` on strings (`due_reminders` relies on it), expressed
over the code points of the characters. -/

def listLe : List Char → List Char → Bool
  | [], _ => true
  | _ :: _, [] => false
  | a :: as, b :: bs =>
    if a.toNat < b.toNat then true
    else if b.toNat < a.toNat then false
    else listLe as bs

def strLe (a b : String) : Bool :=
  listLe a.data b.data

/-! ### The reminders worksheet (bot/sheets.py)

Columns: ID | TaskID | WhenISO | ChatID | ThreadID | CreatedAt | CreatedBy. -/

structure RemRow where
  rowId : String
  taskId : String
  whenISO : String
  chatId : String
  threadId : String
  createdAt : String
  createdBy : String
deriving DecidableEq, Repr

/-- Embeds `due_reminders(now_iso)` from bot/sheets.py: walk the records in stored
order; a record with a falsy (empty) `WhenISO` is skipped by the
`if not w: continue` guard; otherwise it is kept exactly when
`w <= now_iso` holds as a Python string comparison.  (The `try/except`
around the comparison can only fire when the cell is not a string; in this
all-string model the comparison is total.) -/
def due_reminders : List RemRow → String → List RemRow
  | [], _ => []
  | r :: rs, now =>
    if r.whenISO = "" then due_reminders rs now
    else if strLe r.whenISO now then r :: due_reminders rs now
    else due_reminders rs now

/-- Embeds `remove_reminder(reminder_id)` from bot/sheets.py: `ws.find(reminder_id,
in_column=1)` locates the first row of column A whose cell equals the id,
`ws.delete_rows(cell.row)` deletes that row, and the function returns whether
a row was found.  At the data level this deletes the first record whose ID
matches.  (The header cell of column A holds the literal text `ID`; reminder
ids are uuid4 fragments, so the header is never the first match.) -/
def remove_reminder : List RemRow → String → Bool × List RemRow
  | [], _ => (false, [])
  | r :: rs, rid =>
    if r.rowId = rid then (true, rs)
    else
      let res := remove_reminder rs rid
      (res.1, r :: res.2)

/-- The row numbers (1-based, header in row 1) of the records whose TaskID
matches, i.e. `[i+2 for i, r in enumerate(data) if r.get("TaskID")==task_id]`
from `remove_reminders_by_task`; `k` is the row number of the head record. -/
def matchRowNums (tid : String) : List RemRow → Nat → List Nat
  | [], _ => []
  | r :: rs, k =>
    if r.taskId = tid then k :: matchRowNums tid rs (k + 1)
    else matchRowNums tid rs (k + 1)

/-- Embeds `ws.delete_rows(row)`: the sheet drops row `row` and every later row
shifts up by one.  On the data records this removes list index `row - 2`. -/
def delete_row (data : List RemRow) (row : Nat) : List RemRow :=
  data.take (row - 2) ++ data.drop (row - 1)

/-- Python `sorted(_, reverse=True)` on naturals: a descending insertion
(`insDesc`) is inserted element by element. -/
def insDesc (x : Nat) : List Nat → List Nat
  | [] => [x]
  | y :: ys => if x ≥ y then x :: y :: ys else y :: insDesc x ys

def sortDesc : List Nat → List Nat
  | [] => []
  | x :: xs => insDesc x (sortDesc xs)

/-- Embeds `remove_reminders_by_task(task_id)` from bot/sheets.py: collect the sheet
row numbers of the matching records, delete them from the highest row number
down (`for row in sorted(to_delete_rows, reverse=True): ws.delete_rows(row)`),
and return how many rows were collected. -/
def remove_reminders_by_task (data : List RemRow) (tid : String) : Nat × List RemRow :=
  let toDelete := matchRowNums tid data 2
  let data2 := (sortDesc toDelete).foldl delete_row data
  (toDelete.length, data2)

/-- Embeds `add_reminder`: appends one record at the bottom of the sheet
(`ws.append_row([...])`). -/
def add_reminder (data : List RemRow) (r : RemRow) : List RemRow :=
  data ++ [r]

/-- Zero-based deletion of one record; `delete_row data (i + 2) = del0 data i`
(proved below), used to reason about the descending deletion fold. -/
def del0 (l : List RemRow) (i : Nat) : List RemRow :=
  l.take i ++ l.drop (i + 1)

/-! ### Mutations of the reminders table after a delivery

The operations the rest of the system can apply to the reminders sheet:
appending a fresh reminder (`/remind`), cancel-by-id (after a delivery),
cancel-by-task (`/remind cancel`). -/

inductive RemOp where
  | add (row : RemRow)
  | removeById (rid : String)
  | removeByTask (tid : String)
deriving DecidableEq, Repr

def applyOp (rows : List RemRow) : RemOp → List RemRow
  | .add r => add_reminder rows r
  | .removeById rid => (remove_reminder rows rid).2
  | .removeByTask tid => (remove_reminders_by_task rows tid).2

def applyOps : List RemRow → List RemOp → List RemRow
  | rows, [] => rows
  | rows, op :: ops => applyOps (applyOp rows op) ops

/-- An operation re-adds the reminder id `rid` only when it is an `add` whose
row carries that id. -/
def opAvoids (rid : String) : RemOp → Bool
  | .add r => r.rowId != rid
  | .removeById _ => true
  | .removeByTask _ => true

/-! ### One reminder poll tick (bot/app.py, `tick_reminders`)

`tick_reminders` computes the due list once, then iterates: send the
notification, then `remove_reminder`.  There is no `try/except` inside the
loop, so a raised transport error propagates out of the handler: the failing
reminder is neither delivered nor removed, and no later due reminder of the
same tick is processed.  The transport collaborator is abstracted by
`send : RemRow → Bool` (`false` = `_send_chat` raises). -/

structure TickResult where
  delivered : List RemRow
  state : List RemRow
  ok : Bool
deriving DecidableEq, Repr

def tick_loop (send : RemRow → Bool) : List RemRow → List RemRow → TickResult
  | state, [] => ⟨[], state, true⟩
  | state, r :: rest =>
    if send r then
      let res := tick_loop send (remove_reminder state r.rowId).2 rest
      ⟨r :: res.delivered, res.state, res.ok⟩
    else ⟨[], state, false⟩

def tick_reminders (send : RemRow → Bool) (rows : List RemRow) (now_iso : String) :
    TickResult :=
  tick_loop send rows (due_reminders rows now_iso)

/-! ### The freeform task parser (bot/parser.py)

Texts are processed as `List Char`.  The helpers below embed the Python
string operations `parse_freeform` uses; the two run-skipping scans carry a
fuel argument (initialised with the text length, always sufficient since
every step consumes at least one character) so that they are structurally
recursive and reduce inside the kernel. -/

/-- Python str.split() / str.strip() whitespace class (ASCII part). -/
def isPySpace (c : Char) : Bool :=
  c = ' ' || c = '\t' || c = '\n' || c = '\r' || c = '\x0b' || c = '\x0c'

/-- Python str.lower for the alphabets this bot handles: ASCII letters and
the Russian Cyrillic block (А..Я to а..я, Ё to ё). -/
def lowerChar (c : Char) : Char :=
  if 'A' ≤ c ∧ c ≤ 'Z' then Char.ofNat (c.toNat + 32)
  else if c.toNat ≥ 0x410 ∧ c.toNat ≤ 0x42F then Char.ofNat (c.toNat + 32)
  else if c.toNat = 0x401 then Char.ofNat 0x451
  else c

/-- Python substring containment, `sub in text`. -/
def containsSub (sub : List Char) : List Char → Bool
  | [] => sub.isEmpty
  | c :: cs => sub.isPrefixOf (c :: cs) || containsSub sub cs

/-- Python `text.replace(sub, "")`: every occurrence of `sub` is removed,
scanning left to right and continuing after each removed span. -/
def pyReplaceAllFuel (sub : List Char) : Nat → List Char → List Char
  | 0, l => l
  | _ + 1, [] => []
  | fuel + 1, c :: cs =>
    if sub ≠ [] ∧ sub.isPrefixOf (c :: cs) then
      pyReplaceAllFuel sub fuel ((c :: cs).drop sub.length)
    else c :: pyReplaceAllFuel sub fuel cs

def pyReplaceAll (sub l : List Char) : List Char :=
  pyReplaceAllFuel sub l.length l

/-- Python str.split() with no argument: split on whitespace runs, producing
no empty pieces. -/
def pySplitWsAux : List Char → List Char → List (List Char)
  | [], acc => if acc.isEmpty then [] else [acc.reverse]
  | c :: cs, acc =>
    if isPySpace c then
      if acc.isEmpty then pySplitWsAux cs []
      else acc.reverse :: pySplitWsAux cs []
    else pySplitWsAux cs (c :: acc)

def pySplitWs (l : List Char) : List (List Char) := pySplitWsAux l []

/-- Separator class of `re.split` on the pattern matching one-or-more commas
or whitespace characters. -/
def isCommaWs (c : Char) : Bool := c = ',' || isPySpace c

/-- Pieces between maximal separator runs, with an empty piece at an end
when the text starts or ends with a separator (re.split semantics);
`inRun` records whether a separator run is being consumed. -/
def reSplitAux : List Char → List Char → Bool → List (List Char)
  | [], acc, _ => [acc.reverse]
  | c :: cs, acc, inRun =>
    if isCommaWs c then
      if inRun then reSplitAux cs [] true
      else acc.reverse :: reSplitAux cs [] true
    else reSplitAux cs (c :: acc) false

def reSplitCommaWs (l : List Char) : List (List Char) := reSplitAux l [] false

/-- Python str.strip(). -/
def pyStrip (l : List Char) : List Char :=
  ((l.dropWhile isPySpace).reverse.dropWhile isPySpace).reverse

/-- Python lstrip("#"): drop every leading hash. -/
def lstripHash (l : List Char) : List Char := l.dropWhile (fun c => c = '#')

/-- Embeds `re.sub` collapsing each maximal whitespace run to one space. -/
def collapseWsRunsFuel : Nat → List Char → List Char
  | 0, l => l
  | _ + 1, [] => []
  | fuel + 1, c :: cs =>
    if isPySpace c then ' ' :: collapseWsRunsFuel fuel (cs.dropWhile isPySpace)
    else c :: collapseWsRunsFuel fuel cs

def collapseWsRuns (l : List Char) : List Char := collapseWsRunsFuel l.length l

/-- Case-insensitive literal keyword match (RE_DUE is compiled with re.I and
its keywords are lowercase); returns the rest of the text. -/
def matchKw : List Char → List Char → Option (List Char)
  | [], rest => some rest
  | _ :: _, [] => none
  | k :: ks, c :: cs => if lowerChar c = k then matchKw ks cs else none

/-- Matches four digits, a dash, two digits, a dash, two digits at the start
of the text: group 1 of RE_DUE. -/
def matchDateAt : List Char → Option (List Char)
  | a :: b :: c :: d :: '-' :: e :: f :: '-' :: g :: h :: _ =>
    if a.isDigit && b.isDigit && c.isDigit && d.isDigit
        && e.isDigit && f.isDigit && g.isDigit && h.isDigit then
      some [a, b, c, d, '-', e, f, '-', g, h]
    else none
  | _ => none

/-- Tries RE_DUE at one position: the alternation `до|by` tried left to
right, then greedy whitespace (no backtracking needed, whitespace and digits
are disjoint), then the captured date. -/
def tryDueAt (l : List Char) : Option (List Char) :=
  match matchKw ['д', 'о'] l with
  | some rest =>
    match matchDateAt (rest.dropWhile isPySpace) with
    | some d => some d
    | none =>
      match matchKw ['b', 'y'] l with
      | some rest2 => matchDateAt (rest2.dropWhile isPySpace)
      | none => none
  | none =>
    match matchKw ['b', 'y'] l with
    | some rest2 => matchDateAt (rest2.dropWhile isPySpace)
    | none => none

/-- Embeds `RE_DUE.search`: the leftmost position with a full match wins. -/
def reDueSearch : List Char → Option (List Char)
  | [] => none
  | l@(_ :: rest) =>
    match tryDueAt l with
    | some d => some d
    | none => reDueSearch rest

/-- Python `w.startswith(c)` for one character. -/
def startsWithChar (c : Char) : List Char → Bool
  | [] => false
  | x :: _ => x = c

def prioTokens : List String := ["P0", "P1", "P2", "P3"]

/-- The priority loop of `parse_freeform`: the first token of
`("P0","P1","P2","P3")` present as a literal substring is adopted and
`text.replace(p, "")` removes every occurrence of it; default P2. -/
def pickPriority : List String → String → String × String
  | [], text => ("P2", text)
  | p :: ps, text =>
    if containsSub p.data text.data then (p, ⟨pyReplaceAll p.data text.data⟩)
    else pickPriority ps text

/-- The label block of `parse_freeform`: when a hash occurs anywhere, the
whitespace-split words starting with a hash are joined with spaces, re-split
on comma/whitespace runs, stripped, filtered non-empty, hash-lstripped; then
each `"#" + label` has all its occurrences removed from the text. -/
def extractLabels (text : String) : List String × String :=
  if containsSub ['#'] text.data then
    let hashWords := (pySplitWs text.data).filter (fun w => startsWithChar '#' w)
    let joined := List.intercalate [' '] hashWords
    let pieces := reSplitCommaWs joined
    let labels := pieces.filterMap (fun s =>
      let t := pyStrip s
      if t.isEmpty then none else some (String.mk (lstripHash t)))
    let out := labels.foldl (fun acc l => pyReplaceAll ('#' :: l.data) acc) text.data
    (labels, ⟨out⟩)
  else ([], text)

/-- The assignee block of `parse_freeform`: the first whitespace-split token
starting with an at-sign is adopted and all its occurrences removed. -/
def extractAssignee (text : String) : Option String × String :=
  match (pySplitWs text.data).find? (fun w => startsWithChar '@' w) with
  | some tok => (some ⟨tok⟩, ⟨pyReplaceAll tok text.data⟩)
  | none => (none, text)

/-- Whitespace-run collapse followed by strip: the title normalisation. -/
def collapseWs (text : String) : String := ⟨pyStrip (collapseWsRuns text.data)⟩

structure ParsedTask where
  title : String
  priority : String
  assignee : String
  due : Option String
  labels : List String
  project : Option String
deriving DecidableEq, Repr

/-- Embeds `parse_freeform` from bot/parser.py.  Stage order follows the
source: priority strip, RE_DUE search on the stripped text (the matched span
is NOT removed from the text), label extraction, assignee extraction, title
normalisation; the project is the first label when labels exist. -/
def parse_freeform (text : String) : ParsedTask :=
  let pr := pickPriority prioTokens text
  let text1 := pr.2
  let due := (reDueSearch text1.data).map (fun d => (⟨d⟩ : String))
  let lb := extractLabels text1
  let asg := extractAssignee lb.2
  { title := collapseWs asg.2, priority := pr.1,
    assignee := (asg.1).getD "", due, labels := lb.1,
    project := lb.1.head? }

/-! ### The time expression resolver (bot/app.py, parse_when)

Module bot/app.py imports only `datetime` and `date` from the datetime
module (line 12).  The name `timedelta` is therefore unbound in the module,
yet `parse_when` uses it in every relative branch and in the tomorrow
branch, so those branches raise `NameError` when executed — even though the
function docstring and the /help text advertise them.  The today and
absolute branches delegate to the external dateutil parser, abstracted as
constructors carrying the raw text; no claim depends on their value. -/

inductive PyExc where
  | nameError (missing : String)
  | valueError (msg : String)
deriving DecidableEq, Repr

inductive WhenResult where
  | todayAt (tok : String)
  | todayDefault
  | absolute (raw : String)
deriving DecidableEq, Repr

/-- Python `text.endswith(c)` for one character. -/
def endsWithChar (c : Char) (l : List Char) : Bool := l.getLast? == some c

/-- Embeds `parse_when(text, tz)` from bot/app.py: lower-cased stripped
text; a leading plus enters the relative branch where Python first builds
`int` of the digit characters (ValueError when there are none), then checks
the suffix in order m, h|ч, d|д — each of those evaluates the unbound name
`timedelta`, raising NameError — and otherwise raises the documented
ValueError for an unsupported relative format. -/
def parse_when (text : String) : Except PyExc WhenResult :=
  let t := (pyStrip text.data).map lowerChar
  if startsWithChar '+' t then
    let digits := t.filter Char.isDigit
    if digits.isEmpty then
      .error (.valueError "invalid literal for int() with base 10")
    else if endsWithChar 'm' t then .error (.nameError "timedelta")
    else if endsWithChar 'h' t || endsWithChar 'ч' t then .error (.nameError "timedelta")
    else if endsWithChar 'd' t || endsWithChar 'д' t then .error (.nameError "timedelta")
    else .error (.valueError "Неподдержанный относительный формат (+30m|+2h|+1d)")
  else if "завтра".data.isPrefixOf t then .error (.nameError "timedelta")
  else if "сегодня".data.isPrefixOf t then
    match pySplitWs t with
    | _ :: tok :: _ => .ok (.todayAt ⟨tok⟩)
    | _ => .ok .todayDefault
  else .ok (.absolute ⟨t⟩)

/-! ### The tasks worksheet and the filter engine (bot/sheets.py, list_tasks)

Only the columns the verified code paths read are modelled; every cell is
the string stored in the sheet. -/

structure TaskRec where
  taskId : String
  title : String
  status : String
  assignee : String
  priority : String
  due : String
  labels : String
deriving DecidableEq, Repr

/-- Python truthiness of an optional string argument (None and the empty
string are falsy: `if status and ...`). -/
def truthyOpt : Option String → Bool
  | none => false
  | some s => !s.isEmpty

def lowerStr (s : String) : String := ⟨s.data.map lowerChar⟩

/-- Python `s.split(",")`: split at every comma, keeping empty pieces. -/
def splitCommaAux : List Char → List Char → List (List Char)
  | [], acc => [acc.reverse]
  | c :: cs, acc =>
    if c = ',' then acc.reverse :: splitCommaAux cs []
    else splitCommaAux cs (c :: acc)

/-- The label list of a record:
`[s.strip() for s in str(r.get("Labels","")).split(",") if s.strip()]`. -/
def splitLabels (s : String) : List String :=
  (splitCommaAux s.data []).filterMap (fun p =>
    let t := pyStrip p
    if t.isEmpty then none else some (⟨t⟩ : String))

/-- Embeds `list_tasks(status, assignee, label)` from bot/sheets.py: the
loop keeps a record unless a truthy filter rejects it — status by exact
match, assignee by case-insensitive substring containment, label by exact
membership in the split label list. -/
def list_tasks (data : List TaskRec) (status assignee label : Option String) :
    List TaskRec :=
  match data with
  | [] => []
  | r :: rs =>
    if truthyOpt status && !(r.status == status.getD "") then
      list_tasks rs status assignee label
    else if truthyOpt assignee
        && !(containsSub (lowerStr (assignee.getD "")).data (lowerStr r.assignee).data) then
      list_tasks rs status assignee label
    else if truthyOpt label && !((splitLabels r.labels).contains (label.getD "")) then
      list_tasks rs status assignee label
    else r :: list_tasks rs status assignee label

/-- The presentation layer of /list (bot/app.py, cmd_list) renders only the
first 50 filtered records (`for r in tasks[:50]`); the engine itself is not
capped. -/
def cmd_list_shown (data : List TaskRec) (status assignee label : Option String) :
    List TaskRec :=
  (list_tasks data status assignee label).take 50

/-! ### Calendar dates and the daily summary (bot/app.py, send_daily_summary)

The summary reads all records (`list_tasks(status=None)` applies no filter),
skips done tasks, buckets by assignee through a Python dict (embedded as an
insertion-ordered association list with `bump`), counts overdue due dates
through `date.fromisoformat`, and sorts the buckets with Python `sorted` and
the key `(-count, name.lower())` (a stable sort; the insertion sort used
below is stable for this key relation). -/

structure PyDate where
  year : Nat
  month : Nat
  day : Nat
deriving DecidableEq, Repr

def PyDate.ltB (a b : PyDate) : Bool :=
  a.year < b.year || (a.year == b.year
    && (a.month < b.month || (a.month == b.month && a.day < b.day)))

def isLeap (y : Nat) : Bool := (y % 4 == 0 && y % 100 != 0) || y % 400 == 0

def daysInMonth (y m : Nat) : Nat :=
  if m = 2 then (if isLeap y then 29 else 28)
  else if m = 4 ∨ m = 6 ∨ m = 9 ∨ m = 11 then 30
  else 31

def digitsToNat (cs : List Char) : Nat :=
  cs.foldl (fun n c => n * 10 + (c.toNat - '0'.toNat)) 0

def date_fromisoformat (s : String) : Option PyDate :=
  match s.data with
  | [y1, y2, y3, y4, '-', m1, m2, '-', d1, d2] =>
    if y1.isDigit && y2.isDigit && y3.isDigit && y4.isDigit
        && m1.isDigit && m2.isDigit && d1.isDigit && d2.isDigit then
      let y := digitsToNat [y1, y2, y3, y4]
      let m := digitsToNat [m1, m2]
      let d := digitsToNat [d1, d2]
      if 1 ≤ y ∧ 1 ≤ m ∧ m ≤ 12 ∧ 1 ≤ d ∧ d ≤ daysInMonth y m then
        some ⟨y, m, d⟩
      else none
    else none
  | _ => none

def bucketKey (r : TaskRec) : String :=
  if r.assignee = "" then "(не назначено)" else r.assignee

def overdueCell (due : String) (today : PyDate) : Bool :=
  if due = "" then false
  else match date_fromisoformat due with
    | some d => PyDate.ltB d today
    | none => false

def bump : List (String × Nat) → String → List (String × Nat)
  | [], k => [(k, 1)]
  | (a, c) :: rest, k =>
    if a = k then (a, c + 1) :: rest else (a, c) :: bump rest k

def summaryFold (today : PyDate) :
    List TaskRec → List (String × Nat) × Nat → List (String × Nat) × Nat
  | [], acc => acc
  | t :: ts, (m, o) =>
    if t.status == "done" then summaryFold today ts (m, o)
    else summaryFold today ts
      (bump m (bucketKey t), o + (if overdueCell t.due today then 1 else 0))

def summaryRelB (a b : String × Nat) : Bool :=
  decide (b.2 < a.2) || (decide (a.2 = b.2) && strLe (lowerStr a.1) (lowerStr b.1))

def SummaryRel (a b : String × Nat) : Prop := summaryRelB a b = true

instance : DecidableRel SummaryRel :=
  fun a b => inferInstanceAs (Decidable (summaryRelB a b = true))

def send_daily_summary (tasks : List TaskRec) (today : PyDate) :
    List (String × Nat) × Nat :=
  let acc := summaryFold today tasks ([], 0)
  (List.insertionSort SummaryRel acc.1, acc.2)

def lookupCount : List (String × Nat) → String → Nat
  | [], _ => 0
  | (a, c) :: rest, k => if a = k then c else lookupCount rest k


/-! ### Concrete sample data for witnesses and counterexamples -/

def c8Row : TaskRec := ⟨"t1", "Task", "open", "", "P2", "", ""⟩

def c8Data : List TaskRec :=
  [⟨"a", "A", "open", "", "P2", "", "deploy, front"⟩,
   ⟨"b", "B", "open", "", "P2", "", "x"⟩,
   ⟨"c", "C", "done", "", "P2", "", " front ,back"⟩]

def c1Rows : List RemRow :=
  [⟨"r1", "t1", "2025-01-01T10:00:00+03:00", "5", "", "2024-12-31T00:00:00Z", "@u"⟩]

def c1Ops : List RemOp :=
  [RemOp.add ⟨"r2", "t1", "2025-02-01T10:00:00+03:00", "5", "", "2024-12-31T00:00:00Z", "@u"⟩]

def c3Ra : RemRow := ⟨"ra", "t1", "2025-01-01T00:00:00+03:00", "5", "", "c", "@u"⟩

def c3Rb : RemRow := ⟨"rb", "t2", "2025-01-01T00:00:00+03:00", "5", "", "c", "@u"⟩

def c3State : List RemRow := [c3Ra, c3Rb]

def c3Now : String := "2025-06-01T00:00:00+03:00"

/-- A transport that fails exactly on `c3Ra` and succeeds on `c3Rb`. -/
def c3Send : RemRow → Bool := fun r => r.rowId == "rb"

def c10Rows : List RemRow :=
  [⟨"a1", "t1", "2025-01-01T10:00:00+03:00", "5", "", "c", "@u"⟩]

/-! ### The due-polling scan is a filter -/

theorem due_reminders_eq_filter (rows : List RemRow) (now : String) :
    due_reminders rows now
      = rows.filter (fun r => !(r.whenISO == "") && strLe r.whenISO now) := by
  induction rows with
  | nil => rfl
  | cons r rs ih =>
    by_cases h : r.whenISO = ""
    · simp [due_reminders, h, List.filter_cons, ih]
    · by_cases h2 : strLe r.whenISO now
      · simp [due_reminders, h, h2, List.filter_cons, ih]
      · simp [due_reminders, h, h2, List.filter_cons, ih]

theorem due_reminders_sublist (rows : List RemRow) (now : String) :
    (due_reminders rows now).Sublist rows := by
  rw [due_reminders_eq_filter]
  exact List.filter_sublist rows

theorem mem_due_reminders (rows : List RemRow) (now : String) (r : RemRow) :
    r ∈ due_reminders rows now ↔
      r ∈ rows ∧ r.whenISO ≠ "" ∧ strLe r.whenISO now = true := by
  rw [due_reminders_eq_filter, List.mem_filter]
  simp [and_assoc]

theorem mem_of_mem_due (rows : List RemRow) (now : String) (r : RemRow)
    (h : r ∈ due_reminders rows now) : r ∈ rows :=
  ((mem_due_reminders rows now r).mp h).1

/-! ### Cancel-by-id: behaviour of `remove_reminder` -/

theorem remove_reminder_not_found (rows : List RemRow) (rid : String)
    (h : ∀ r ∈ rows, r.rowId ≠ rid) :
    remove_reminder rows rid = (false, rows) := by
  induction rows with
  | nil => rfl
  | cons r rs ih =>
    have hr : r.rowId ≠ rid := h r (List.mem_cons_self r rs)
    have hrest : remove_reminder rs rid = (false, rs) :=
      ih (fun x hx => h x (List.mem_cons_of_mem r hx))
    simp [remove_reminder, hr, hrest]

theorem mem_of_mem_remove (rows : List RemRow) (rid : String) (r : RemRow)
    (h : r ∈ (remove_reminder rows rid).2) : r ∈ rows := by
  induction rows with
  | nil => simp [remove_reminder] at h
  | cons x xs ih =>
    by_cases hx : x.rowId = rid
    · simp only [remove_reminder, hx, if_pos rfl] at h
      exact List.mem_cons_of_mem x h
    · simp only [remove_reminder, hx, if_neg hx] at h
      rcases List.mem_cons.mp h with h1 | h2
      · exact h1 ▸ List.mem_cons_self x xs
      · exact List.mem_cons_of_mem x (ih h2)

theorem mem_remove_of_ne (rows : List RemRow) (rid : String) (r : RemRow)
    (hmem : r ∈ rows) (hne : r.rowId ≠ rid) :
    r ∈ (remove_reminder rows rid).2 := by
  induction rows with
  | nil => simp at hmem
  | cons x xs ih =>
    by_cases hx : x.rowId = rid
    · simp only [remove_reminder, hx, if_pos rfl]
      rcases List.mem_cons.mp hmem with h1 | h2
      · exact absurd (h1 ▸ hx) hne
      · exact h2
    · simp only [remove_reminder, hx, if_neg hx]
      rcases List.mem_cons.mp hmem with h1 | h2
      · exact h1 ▸ List.mem_cons_self x _
      · exact List.mem_cons_of_mem x (ih h2)

theorem noRid_after_remove (rows : List RemRow) (rid : String)
    (hcount : rows.countP (fun r => r.rowId == rid) ≤ 1)
    (hfound : (remove_reminder rows rid).1 = true) :
    ∀ r ∈ (remove_reminder rows rid).2, r.rowId ≠ rid := by
  induction rows with
  | nil => simp [remove_reminder] at hfound
  | cons x xs ih =>
    by_cases hx : x.rowId = rid
    · simp only [remove_reminder, hx, if_pos rfl]
      have hc : xs.countP (fun r => r.rowId == rid) = 0 := by
        have h1 : (x :: xs).countP (fun r => r.rowId == rid)
            = xs.countP (fun r => r.rowId == rid) + 1 := by
          simp [List.countP_cons, hx]
        omega
      intro r hr
      have := List.countP_eq_zero.mp hc r hr
      simpa using this
    · have hcount' : xs.countP (fun r => r.rowId == rid) ≤ 1 := by
        have h1 : (x :: xs).countP (fun r => r.rowId == rid)
            = xs.countP (fun r => r.rowId == rid) := by
          simp [List.countP_cons, hx]
        omega
      have hfound' : (remove_reminder xs rid).1 = true := by
        simpa [remove_reminder, hx] using hfound
      simp only [remove_reminder, hx, if_neg hx]
      intro r hr
      rcases List.mem_cons.mp hr with h1 | h2
      · exact h1 ▸ hx
      · exact ih hcount' hfound' r h2

/-! ### Cancel-by-task: descending deletion equals a filter

`remove_reminders_by_task` computes 1-based sheet row numbers (offset 2 for
the header) and deletes them from the highest downward.  The proof reduces
the fold of `delete_row` to a fold of a 0-based deletion `del0` and shows it
removes exactly the matching records. -/

theorem delete_row_shift (data : List RemRow) (i : Nat) :
    delete_row data (i + 2) = del0 data i := by
  simp [delete_row, del0]

theorem matchRowNums_shift (tid : String) (rs : List RemRow) :
    ∀ k, matchRowNums tid rs (k + 1) = (matchRowNums tid rs k).map (· + 1) := by
  induction rs with
  | nil => intro k; rfl
  | cons r rest ih =>
    intro k
    by_cases h : r.taskId = tid
    · simp [matchRowNums, h, ih (k + 1)]
    · simp [matchRowNums, h, ih (k + 1)]

theorem matchRowNums_cons_pos (tid : String) (r : RemRow) (rs : List RemRow) (k : Nat)
    (h : r.taskId = tid) :
    matchRowNums tid (r :: rs) k = k :: matchRowNums tid rs (k + 1) := by
  simp [matchRowNums, h]

theorem matchRowNums_cons_neg (tid : String) (r : RemRow) (rs : List RemRow) (k : Nat)
    (h : ¬ r.taskId = tid) :
    matchRowNums tid (r :: rs) k = matchRowNums tid rs (k + 1) := by
  simp [matchRowNums, h]

theorem matchRowNums_ge (tid : String) (rs : List RemRow) :
    ∀ k, ∀ x ∈ matchRowNums tid rs k, k ≤ x := by
  induction rs with
  | nil => intro k x hx; simp [matchRowNums] at hx
  | cons r rest ih =>
    intro k x hx
    by_cases h : r.taskId = tid
    · rw [matchRowNums_cons_pos tid r rest k h] at hx
      rcases List.mem_cons.mp hx with h1 | h2
      · omega
      · have := ih (k + 1) x h2; omega
    · rw [matchRowNums_cons_neg tid r rest k h] at hx
      have := ih (k + 1) x hx; omega

theorem matchRowNums_sorted (tid : String) (rs : List RemRow) :
    ∀ k, (matchRowNums tid rs k).Sorted (· < ·) := by
  induction rs with
  | nil => intro k; simp [matchRowNums]
  | cons r rest ih =>
    intro k
    by_cases h : r.taskId = tid
    · rw [matchRowNums_cons_pos tid r rest k h]
      refine List.sorted_cons.mpr ⟨?_, ih (k + 1)⟩
      intro b hb
      have := matchRowNums_ge tid rest (k + 1) b hb
      omega
    · rw [matchRowNums_cons_neg tid r rest k h]
      exact ih (k + 1)

theorem insDesc_append (x : Nat) (s : List Nat) (h : ∀ y ∈ s, x < y) :
    insDesc x s = s ++ [x] := by
  induction s with
  | nil => rfl
  | cons y ys ih =>
    have hy : x < y := h y (List.mem_cons_self y ys)
    have hge : ¬ x ≥ y := by omega
    simp [insDesc, hge, ih (fun z hz => h z (List.mem_cons_of_mem y hz))]

theorem sortDesc_of_sorted_lt (l : List Nat) (h : l.Sorted (· < ·)) :
    sortDesc l = l.reverse := by
  induction l with
  | nil => rfl
  | cons x xs ih =>
    rcases List.sorted_cons.mp h with ⟨hx, hxs⟩
    have : sortDesc xs = xs.reverse := ih hxs
    simp only [sortDesc, this]
    rw [insDesc_append x xs.reverse (fun y hy => hx y (List.mem_reverse.mp hy))]
    simp

theorem foldl_del0_map_succ (idxs : List Nat) :
    ∀ (r : RemRow) (rest : List RemRow),
      (idxs.map (· + 1)).foldl del0 (r :: rest) = r :: idxs.foldl del0 rest := by
  induction idxs with
  | nil => intro r rest; rfl
  | cons i is ih =>
    intro r rest
    have hstep : del0 (r :: rest) (i + 1) = r :: del0 rest i := by
      simp [del0, List.take_succ_cons, List.drop_succ_cons]
    simp only [List.map_cons, List.foldl_cons, hstep]
    exact ih r (del0 rest i)

theorem foldl_del0_reverse (tid : String) (data : List RemRow) :
    ((matchRowNums tid data 0).reverse).foldl del0 data
      = data.filter (fun r => !(r.taskId == tid)) := by
  induction data with
  | nil => rfl
  | cons r rs ih =>
    have hshift := matchRowNums_shift tid rs 0
    by_cases h : r.taskId = tid
    · rw [matchRowNums_cons_pos tid r rs 0 h, hshift, List.reverse_cons,
        ← List.map_reverse, List.foldl_append, foldl_del0_map_succ, ih]
      simp [del0, List.filter_cons, h]
    · rw [matchRowNums_cons_neg tid r rs 0 h, hshift,
        ← List.map_reverse, foldl_del0_map_succ, ih]
      simp [List.filter_cons, h]

theorem matchRowNums_two (tid : String) (data : List RemRow) :
    matchRowNums tid data 2 = (matchRowNums tid data 0).map (· + 2) := by
  have h1 := matchRowNums_shift tid data 0
  have h2 := matchRowNums_shift tid data 1
  rw [show (2 : Nat) = 1 + 1 from rfl, h2, h1, List.map_map]
  apply List.map_congr_left
  intro a _
  simp only [Function.comp_apply]
  try omega

theorem foldl_delete_row_map2 (idxs : List Nat) :
    ∀ data : List RemRow,
      (idxs.map (· + 2)).foldl delete_row data = idxs.foldl del0 data := by
  induction idxs with
  | nil => intro data; rfl
  | cons i is ih =>
    intro data
    simp only [List.map_cons, List.foldl_cons, delete_row_shift]
    exact ih (del0 data i)

theorem matchRowNums_length (tid : String) (data : List RemRow) :
    ∀ k, (matchRowNums tid data k).length
      = (data.filter (fun r => r.taskId == tid)).length := by
  induction data with
  | nil => intro k; rfl
  | cons r rs ih =>
    intro k
    by_cases h : r.taskId = tid
    · simp [matchRowNums, h, List.filter_cons, ih (k + 1)]
    · simp [matchRowNums, h, List.filter_cons, ih (k + 1)]

theorem remove_reminders_by_task_spec (data : List RemRow) (tid : String) :
    remove_reminders_by_task data tid
      = ((data.filter (fun r => r.taskId == tid)).length,
         data.filter (fun r => !(r.taskId == tid))) := by
  have hsorted := matchRowNums_sorted tid data 2
  show ((matchRowNums tid data 2).length,
      (sortDesc (matchRowNums tid data 2)).foldl delete_row data) = _
  rw [sortDesc_of_sorted_lt _ hsorted, matchRowNums_length tid data 2,
    matchRowNums_two, ← List.map_reverse, foldl_delete_row_map2,
    foldl_del0_reverse]

/-! ### Absence of a reminder id is preserved by later table operations -/

theorem noRid_applyOp (rid : String) (rows : List RemRow) (op : RemOp)
    (h : ∀ r ∈ rows, r.rowId ≠ rid) (hop : opAvoids rid op = true) :
    ∀ r ∈ applyOp rows op, r.rowId ≠ rid := by
  cases op with
  | add row =>
    intro r hr
    rcases List.mem_append.mp hr with h1 | h2
    · exact h r h1
    · have heq : r = row := by simpa using h2
      subst heq
      simpa [opAvoids] using hop
  | removeById rid2 =>
    intro r hr
    exact h r (mem_of_mem_remove rows rid2 r hr)
  | removeByTask tid =>
    intro r hr
    have hfilter : (remove_reminders_by_task rows tid).2
        = rows.filter (fun r => !(r.taskId == tid)) :=
      congrArg Prod.snd (remove_reminders_by_task_spec rows tid)
    have : r ∈ rows := by
      have hr2 : r ∈ (remove_reminders_by_task rows tid).2 := hr
      rw [hfilter] at hr2
      exact (List.mem_filter.mp hr2).1
    exact h r this

theorem noRid_applyOps (rid : String) (ops : List RemOp) :
    ∀ rows : List RemRow, (∀ r ∈ rows, r.rowId ≠ rid) →
      (∀ op ∈ ops, opAvoids rid op = true) →
      ∀ r ∈ applyOps rows ops, r.rowId ≠ rid := by
  induction ops with
  | nil => intro rows h _ r hr; exact h r hr
  | cons op rest ih =>
    intro rows h hops r hr
    exact ih (applyOp rows op)
      (noRid_applyOp rid rows op h (hops op (List.mem_cons_self op rest)))
      (fun o ho => hops o (List.mem_cons_of_mem op ho)) r hr

/-! ### Behaviour of one poll tick -/

theorem tick_loop_delivered (send : RemRow → Bool) (queue : List RemRow) :
    ∀ state, (tick_loop send state queue).delivered = queue.takeWhile send := by
  induction queue with
  | nil => intro state; rfl
  | cons r rest ih =>
    intro state
    by_cases h : send r
    · simp [tick_loop, h, List.takeWhile_cons, ih]
    · simp [tick_loop, h, List.takeWhile_cons]

theorem tick_loop_state_mem (send : RemRow → Bool) (f : RemRow) (queue : List RemRow) :
    ∀ state, f ∈ state → (∀ d ∈ queue, send d = true → d.rowId ≠ f.rowId) →
      f ∈ (tick_loop send state queue).state := by
  induction queue with
  | nil => intro state hf _; exact hf
  | cons r rest ih =>
    intro state hf hq
    by_cases h : send r
    · have hne : r.rowId ≠ f.rowId := hq r (List.mem_cons_self r rest) h
      have hf2 : f ∈ (remove_reminder state r.rowId).2 :=
        mem_remove_of_ne state r.rowId f hf (Ne.symm hne)
      have := ih _ hf2 (fun d hd hsd => hq d (List.mem_cons_of_mem r hd) hsd)
      simpa [tick_loop, h] using this
    · simpa [tick_loop, h] using hf

/-! ### The claims -/

/-- C1: a reminder fires at most once.  If the reminder id `rid` occurs at
most once in the table (ids are uuid fragments) and `remove_reminder` has
successfully deleted its row after delivery, then after any further sequence
of table operations none of which re-adds that id, `due_reminders` at any
`now` instant never returns a row with that id again. -/
theorem claim_C1 (rows : List RemRow) (rid : String) (ops : List RemOp) (now : String)
    (hcount : rows.countP (fun r => r.rowId == rid) ≤ 1)
    (hfound : (remove_reminder rows rid).1 = true)
    (havoid : ∀ op ∈ ops, opAvoids rid op = true) :
    rid ∉ (due_reminders (applyOps (remove_reminder rows rid).2 ops) now).map
      RemRow.rowId := by
  intro hmem
  rcases List.mem_map.mp hmem with ⟨r, hr, hid⟩
  have hstate : r ∈ applyOps (remove_reminder rows rid).2 ops :=
    mem_of_mem_due _ now r hr
  exact noRid_applyOps rid ops (remove_reminder rows rid).2
    (noRid_after_remove rows rid hcount hfound) havoid r hstate hid

/-- Witness for C1 at a concrete table, delivery and subsequent add. -/
theorem claim_C1_witness :
    (c1Rows.countP (fun r => r.rowId == "r1") ≤ 1)
  ∧ ((remove_reminder c1Rows "r1").1 = true)
  ∧ (∀ op ∈ c1Ops, opAvoids "r1" op = true)
  ∧ "r1" ∉ (due_reminders (applyOps (remove_reminder c1Rows "r1").2 c1Ops)
      "2026-01-01T00:00:00+03:00").map RemRow.rowId :=
  ⟨by decide, by decide, by decide,
   claim_C1 c1Rows "r1" c1Ops "2026-01-01T00:00:00+03:00"
     (by decide) (by decide) (by decide)⟩

/-- C2: `due_reminders(now_iso)` returns exactly the stored rows whose
non-empty `WhenISO` text is lexicographically ≤ `now_iso` as a string
comparison, in stored order (a sublist); rows with an empty `WhenISO` are
skipped and never abort the scan (the function is total). -/
theorem claim_C2 (rows : List RemRow) (now_iso : String) :
    due_reminders rows now_iso
        = rows.filter (fun r => !(r.whenISO == "") && strLe r.whenISO now_iso)
      ∧ (due_reminders rows now_iso).Sublist rows
      ∧ ∀ r : RemRow, r ∈ due_reminders rows now_iso ↔
          r ∈ rows ∧ r.whenISO ≠ "" ∧ strLe r.whenISO now_iso = true :=
  ⟨due_reminders_eq_filter rows now_iso, due_reminders_sublist rows now_iso,
   mem_due_reminders rows now_iso⟩

/-- C3 as stated is false: delivery failures are NOT caught per item.  Here
`c3Ra` fails and `c3Rb` is due with a transport that would deliver it, yet
`c3Rb` is not delivered in the tick, because the failure on `c3Ra` aborts
the loop. -/
theorem claim_C3_cex :
    c3Send c3Ra = false ∧ c3Send c3Rb = true
  ∧ c3Rb ∈ due_reminders c3State c3Now
  ∧ c3Rb ∉ (tick_reminders c3Send c3State c3Now).delivered
  ∧ c3Ra ∈ (tick_reminders c3Send c3State c3Now).state := by
  decide

/-- C3 (amended): when delivering reminder `f` fails during a tick, `f` is
not delivered, its row is left in place — but the tick aborts at the first
failure: exactly the longest prefix of the due list on which the transport
succeeds is delivered; the due reminders at and after the first failure are
not delivered in that tick. -/
theorem claim_C3 (send : RemRow → Bool) (state : List RemRow) (now : String)
    (f : RemRow)
    (hdue : f ∈ due_reminders state now) (hfail : send f = false)
    (hids : ∀ d ∈ due_reminders state now, send d = true → d.rowId ≠ f.rowId) :
    f ∉ (tick_reminders send state now).delivered
  ∧ f ∈ (tick_reminders send state now).state
  ∧ (tick_reminders send state now).delivered
      = (due_reminders state now).takeWhile send := by
  have hdel : (tick_reminders send state now).delivered
      = (due_reminders state now).takeWhile send :=
    tick_loop_delivered send (due_reminders state now) state
  refine ⟨?_, ?_, hdel⟩
  · intro hmem
    rw [hdel] at hmem
    have := List.mem_takeWhile_imp hmem
    rw [hfail] at this
    exact Bool.false_ne_true this
  · exact tick_loop_state_mem send f (due_reminders state now) state
      (mem_of_mem_due state now f hdue) hids

/-- Witness for C3 (amended) at the concrete failing tick. -/
theorem claim_C3_witness :
    (c3Ra ∈ due_reminders c3State c3Now) ∧ (c3Send c3Ra = false)
  ∧ (∀ d ∈ due_reminders c3State c3Now, c3Send d = true → d.rowId ≠ c3Ra.rowId)
  ∧ (c3Ra ∉ (tick_reminders c3Send c3State c3Now).delivered
      ∧ c3Ra ∈ (tick_reminders c3Send c3State c3Now).state
      ∧ (tick_reminders c3Send c3State c3Now).delivered
          = (due_reminders c3State c3Now).takeWhile c3Send) :=
  ⟨by decide, by decide, by decide,
   claim_C3 c3Send c3State c3Now c3Ra (by decide) (by decide) (by decide)⟩

/-- C4: `remove_reminders_by_task` deletes exactly the rows whose TaskID
matches and no others — the descending deletion order makes the fold of
index-shifting row deletions equal to a filter — and returns the number of
matching rows. -/
theorem claim_C4 (data : List RemRow) (tid : String) :
    (remove_reminders_by_task data tid).2
        = data.filter (fun r => !(r.taskId == tid))
      ∧ (remove_reminders_by_task data tid).1
        = (data.filter (fun r => r.taskId == tid)).length := by
  have h := remove_reminders_by_task_spec data tid
  exact ⟨congrArg Prod.snd h, congrArg Prod.fst h⟩

/-- C10: cancel-by-id on an id that matches no row returns `false` and
leaves the reminders table unchanged; not-found is a boolean, not an
exception, and nothing is deleted. -/
theorem claim_C10 (rows : List RemRow) (rid : String)
    (h : ∀ r ∈ rows, r.rowId ≠ rid) :
    remove_reminder rows rid = (false, rows) :=
  remove_reminder_not_found rows rid h

/-- Witness for C10 on a concrete table and missing id. -/
theorem claim_C10_witness :
    (∀ r ∈ c10Rows, r.rowId ≠ "zz")
  ∧ remove_reminder c10Rows "zz" = (false, c10Rows) :=
  ⟨by decide, claim_C10 c10Rows "zz" (by decide)⟩

/-! ### Freeform parser claims -/

theorem pickPriority_find (ps : List String) (text : String) :
    pickPriority ps text
      = match ps.find? (fun p => containsSub p.data text.data) with
        | some p => (p, (⟨pyReplaceAll p.data text.data⟩ : String))
        | none => ("P2", text) := by
  induction ps with
  | nil => rfl
  | cons p rest ih =>
    by_cases h : containsSub p.data text.data
    · simp [pickPriority, h, List.find?_cons, List.find?]
    · simp [pickPriority, h, List.find?_cons, List.find?, ih]

/-- C5 as stated is false: the matched due-date span is NOT stripped from
the text before the title is formed; on the spec example the produced title
still carries the marker. -/
theorem claim_C5_cex :
    (parse_freeform "Fix deploy P1 @vadim by 2025-09-05 #deploy #frontend").title
        = "Fix deploy by 2025-09-05"
  ∧ (parse_freeform "Fix deploy P1 @vadim by 2025-09-05 #deploy #frontend").title
        ≠ "Fix deploy" := by
  decide

/-- C5 (amended): on the spec example the parser returns priority P1,
assignee, captured due date, labels and project as claimed, but the due span
stays in the text, so the title is the claimed one with the matched
due-date span still attached. -/
theorem claim_C5 :
    parse_freeform "Fix deploy P1 @vadim by 2025-09-05 #deploy #frontend"
      = { title := "Fix deploy by 2025-09-05", priority := "P1",
          assignee := "@vadim", due := some "2025-09-05",
          labels := ["deploy", "frontend"], project := some "deploy" } := by
  decide

/-- C7 as stated is false: `text.replace(p, "")` removes every occurrence of
the adopted priority token, not only the first, so the second `P1` does not
survive into the title. -/
theorem claim_C7_cex :
    (parse_freeform "P1 foo P1").title = "foo"
  ∧ (parse_freeform "P1 foo P1").title ≠ "foo P1" := by
  decide

/-- C7 (amended): for every input text the parser adopts the first token of
P0,P1,P2,P3 that occurs as a literal substring (no word boundaries), removes
every occurrence of it from the text, and defaults to P2 when none occurs
(leaving the text unchanged). -/
theorem claim_C7 (text : String) :
    (parse_freeform text).priority
        = ((prioTokens.find? (fun p => containsSub p.data text.data)).getD "P2")
  ∧ pickPriority prioTokens text
      = (match prioTokens.find? (fun p => containsSub p.data text.data) with
         | some p => (p, (⟨pyReplaceAll p.data text.data⟩ : String))
         | none => ("P2", text)) := by
  have h := pickPriority_find prioTokens text
  constructor
  · have hpr : (parse_freeform text).priority = (pickPriority prioTokens text).1 := rfl
    rw [hpr, h]
    cases hf : prioTokens.find? (fun p => containsSub p.data text.data) <;> simp
  · exact h

/-! ### Time resolver claim -/

/-- C6: the relative-time grammar is broken in the code.  For every advertised
unit suffix the relative branch raises NameError, because `timedelta` is
never imported in bot/app.py; only the unrecognized-suffix ValueError of the
claim survives.  This contradicts the docstring of `parse_when` and the
/help text, which advertise +30m, +2h, +1d. -/
theorem claim_C6 :
    parse_when "+30m" = .error (.nameError "timedelta")
  ∧ parse_when "+2h" = .error (.nameError "timedelta")
  ∧ parse_when "+2ч" = .error (.nameError "timedelta")
  ∧ parse_when "+1d" = .error (.nameError "timedelta")
  ∧ parse_when "+1д" = .error (.nameError "timedelta")
  ∧ parse_when "+30x"
      = .error (.valueError "Неподдержанный относительный формат (+30m|+2h|+1d)") :=
  ⟨rfl, rfl, rfl, rfl, rfl, rfl⟩

/-! ### Filter engine claims -/

theorem list_tasks_label_filter (data : List TaskRec) (x : String) (hx : x ≠ "") :
    list_tasks data none none (some x)
      = data.filter (fun r => (splitLabels r.labels).contains x) := by
  have hxe : x.isEmpty = false := by
    cases hxx : x.isEmpty
    · rfl
    · exact absurd ((String.isEmpty_iff x).mp hxx) hx
  induction data with
  | nil => rfl
  | cons r rs ih =>
    by_cases h : (splitLabels r.labels).contains x
    · simp [list_tasks, truthyOpt, hxe, h, List.filter_cons, ih]
    · simp [list_tasks, truthyOpt, hxe, h, List.filter_cons, ih]

/-- C8 as stated is false for the empty label: Python truthiness disables
the label filter for `label=""`, so every record is returned, while the
claimed subsequence (records whose label list contains `""`) is empty. -/
theorem claim_C8_cex :
    list_tasks [c8Row] none none (some "") = [c8Row]
  ∧ (splitLabels c8Row.labels).contains "" = false
  ∧ [c8Row].filter (fun r => (splitLabels r.labels).contains "") = [] := by
  decide

/-- C8 (amended): for every non-empty label x, the engine returns exactly
the subsequence of records whose comma-split, whitespace-trimmed label list
contains x, in the original order, without any cap; the 50-entry cap is
applied by the presentation layer on top of the engine output. -/
theorem claim_C8 (data : List TaskRec) (x : String) (hx : x ≠ "") :
    list_tasks data none none (some x)
        = data.filter (fun r => (splitLabels r.labels).contains x)
      ∧ (list_tasks data none none (some x)).Sublist data
      ∧ cmd_list_shown data none none (some x)
        = (data.filter (fun r => (splitLabels r.labels).contains x)).take 50 := by
  have h := list_tasks_label_filter data x hx
  refine ⟨h, ?_, ?_⟩
  · rw [h]; exact List.filter_sublist data
  · show (list_tasks data none none (some x)).take 50 = _
    rw [h]

/-- Witness for C8 (amended) on a concrete collection where matches keep
their stored order and skip the non-matching record. -/
theorem claim_C8_witness :
    ("front" ≠ "")
  ∧ (list_tasks c8Data none none (some "front")
        = c8Data.filter (fun r => (splitLabels r.labels).contains "front")
      ∧ (list_tasks c8Data none none (some "front")).Sublist c8Data
      ∧ cmd_list_shown c8Data none none (some "front")
        = (c8Data.filter (fun r => (splitLabels r.labels).contains "front")).take 50) :=
  ⟨by decide, claim_C8 c8Data "front" (by decide)⟩

/-! ### Daily summary lemmas and claim -/

theorem listLe_total : ∀ a b : List Char, listLe a b = true ∨ listLe b a = true := by
  intro a
  induction a with
  | nil => intro b; left; rfl
  | cons x xs ih =>
    intro b
    cases b with
    | nil => right; rfl
    | cons y ys =>
      by_cases h1 : x.toNat < y.toNat
      · left; simp [listLe, h1]
      · by_cases h2 : y.toNat < x.toNat
        · right; simp [listLe, h2]
        · rcases ih ys with hl | hl
          · left; simp [listLe, h1, h2, hl]
          · right; simp [listLe, h1, h2, hl]

theorem listLe_trans : ∀ a b c : List Char,
    listLe a b = true → listLe b c = true → listLe a c = true := by
  intro a
  induction a with
  | nil => intro b c _ _; rfl
  | cons x xs ih =>
    intro b c hab hbc
    cases b with
    | nil => simp [listLe] at hab
    | cons y ys =>
      cases c with
      | nil => simp [listLe] at hbc
      | cons z zs =>
        have hab' : x.toNat < y.toNat ∨ (x.toNat = y.toNat ∧ listLe xs ys = true) := by
          by_cases h1 : x.toNat < y.toNat
          · exact Or.inl h1
          · by_cases h2 : y.toNat < x.toNat
            · simp [listLe, h1, h2] at hab
            · refine Or.inr ⟨by omega, ?_⟩
              simpa [listLe, h1, h2] using hab
        have hbc' : y.toNat < z.toNat ∨ (y.toNat = z.toNat ∧ listLe ys zs = true) := by
          by_cases g1 : y.toNat < z.toNat
          · exact Or.inl g1
          · by_cases g2 : z.toNat < y.toNat
            · simp [listLe, g1, g2] at hbc
            · refine Or.inr ⟨by omega, ?_⟩
              simpa [listLe, g1, g2] using hbc
        rcases hab' with h | ⟨he, hrec⟩
        · rcases hbc' with g | ⟨ge, grec⟩
          · have hx : x.toNat < z.toNat := by omega
            simp [listLe, hx]
          · have hx : x.toNat < z.toNat := by omega
            simp [listLe, hx]
        · rcases hbc' with g | ⟨ge, grec⟩
          · have hx : x.toNat < z.toNat := by omega
            simp [listLe, hx]
          · have hxz : ¬ x.toNat < z.toNat := by omega
            have hzx : ¬ z.toNat < x.toNat := by omega
            simp only [listLe, hxz, hzx, if_false]
            exact ih ys zs hrec grec

theorem summaryRel_total : ∀ a b : String × Nat, SummaryRel a b ∨ SummaryRel b a := by
  intro a b
  unfold SummaryRel summaryRelB
  rcases Nat.lt_trichotomy a.2 b.2 with h | h | h
  · right; simp [h]
  · rcases listLe_total (lowerStr a.1).data (lowerStr b.1).data with hl | hl
    · left; simp [h, strLe, hl]
    · right; simp [h.symm, strLe, hl]
  · left; simp [h]

theorem summaryRel_trans : ∀ a b c : String × Nat,
    SummaryRel a b → SummaryRel b c → SummaryRel a c := by
  intro a b c hab hbc
  unfold SummaryRel summaryRelB at *
  simp only [Bool.or_eq_true, Bool.and_eq_true, decide_eq_true_eq, strLe] at hab hbc ⊢
  rcases hab with h1 | ⟨h1, h2⟩
  · rcases hbc with g1 | ⟨g1, g2⟩
    · left; omega
    · left; omega
  · rcases hbc with g1 | ⟨g1, g2⟩
    · left; omega
    · exact Or.inr ⟨by omega, listLe_trans _ _ _ h2 g2⟩

theorem bump_cons_pos (a : String) (c : Nat) (rest : List (String × Nat)) (k : String)
    (h : a = k) : bump ((a, c) :: rest) k = (a, c + 1) :: rest := by
  simp [bump, h]

theorem bump_cons_neg (a : String) (c : Nat) (rest : List (String × Nat)) (k : String)
    (h : ¬ a = k) : bump ((a, c) :: rest) k = (a, c) :: bump rest k := by
  simp [bump, h]

theorem lookupCount_bump_same (m : List (String × Nat)) (k : String) :
    lookupCount (bump m k) k = lookupCount m k + 1 := by
  induction m with
  | nil => simp [bump, lookupCount]
  | cons p rest ih =>
    obtain ⟨a, c⟩ := p
    by_cases h : a = k
    · rw [bump_cons_pos a c rest k h]
      simp [lookupCount, h]
    · rw [bump_cons_neg a c rest k h]
      simp [lookupCount, h, ih]

theorem lookupCount_bump_other (m : List (String × Nat)) (k k' : String) (h : k' ≠ k) :
    lookupCount (bump m k) k' = lookupCount m k' := by
  induction m with
  | nil =>
    have hne : ¬ (k = k') := Ne.symm h
    simp [bump, lookupCount, hne]
  | cons p rest ih =>
    obtain ⟨a, c⟩ := p
    by_cases ha : a = k
    · rw [bump_cons_pos a c rest k ha]
      have hne : ¬ (a = k') := fun he => h (he.symm.trans ha)
      simp [lookupCount, hne]
    · rw [bump_cons_neg a c rest k ha]
      by_cases ha2 : a = k'
      · simp [lookupCount, ha2]
      · simp [lookupCount, ha2, ih]

theorem mem_keys_bump (m : List (String × Nat)) (k k' : String) :
    k' ∈ (bump m k).map Prod.fst ↔ k' ∈ m.map Prod.fst ∨ k' = k := by
  induction m with
  | nil => simp [bump, eq_comm]
  | cons p rest ih =>
    obtain ⟨a, c⟩ := p
    by_cases h : a = k
    · rw [bump_cons_pos a c rest k h]
      subst h
      simp
      tauto
    · rw [bump_cons_neg a c rest k h]
      simp [ih]
      tauto

theorem nodup_keys_bump (m : List (String × Nat)) (k : String)
    (h : (m.map Prod.fst).Nodup) : ((bump m k).map Prod.fst).Nodup := by
  induction m with
  | nil => simp [bump]
  | cons p rest ih =>
    obtain ⟨a, c⟩ := p
    rcases List.nodup_cons.mp h with ⟨hnin, hnd2⟩
    by_cases hk : a = k
    · rw [bump_cons_pos a c rest k hk]
      simpa using h
    · rw [bump_cons_neg a c rest k hk]
      rw [List.map_cons, List.nodup_cons]
      refine ⟨?_, ih hnd2⟩
      rw [mem_keys_bump]
      rintro (hin | rfl)
      · exact hnin hin
      · exact hk rfl

theorem mem_iff_lookupCount (m : List (String × Nat))
    (hnd : (m.map Prod.fst).Nodup) (k : String) (c : Nat) :
    (k, c) ∈ m ↔ (lookupCount m k = c ∧ k ∈ m.map Prod.fst) := by
  induction m with
  | nil => simp
  | cons p rest ih =>
    obtain ⟨a, c0⟩ := p
    rcases List.nodup_cons.mp hnd with ⟨hnin, hnd2⟩
    by_cases h : a = k
    · subst h
      constructor
      · intro hm
        rcases List.mem_cons.mp hm with he | hm2
        · have hc : c = c0 := congrArg Prod.snd he
          subst hc
          simp [lookupCount]
        · exact absurd (List.mem_map.mpr ⟨(a, c), hm2, rfl⟩) hnin
      · rintro ⟨hl, _⟩
        simp only [lookupCount, if_pos rfl] at hl
        subst hl
        exact List.mem_cons_self _ _
    · constructor
      · intro hm
        rcases List.mem_cons.mp hm with he | hm2
        · exact absurd (congrArg Prod.fst he).symm h
        · have hr := (ih hnd2).mp hm2
          refine ⟨?_, ?_⟩
          · simpa [lookupCount, h] using hr.1
          · simp [hr.2]
      · rintro ⟨hl, hk⟩
        simp only [lookupCount, if_neg h] at hl
        have hk2 : k ∈ rest.map Prod.fst := by
          rw [List.map_cons] at hk
          rcases List.mem_cons.mp hk with he | hm
          · exact absurd he.symm h
          · exact hm
        exact List.mem_cons_of_mem _ ((ih hnd2).mpr ⟨hl, hk2⟩)

theorem summaryFold_done (today : PyDate) (t : TaskRec) (ts : List TaskRec)
    (m : List (String × Nat)) (o : Nat) (h : t.status = "done") :
    summaryFold today (t :: ts) (m, o) = summaryFold today ts (m, o) := by
  simp [summaryFold, h]

theorem summaryFold_live (today : PyDate) (t : TaskRec) (ts : List TaskRec)
    (m : List (String × Nat)) (o : Nat) (h : ¬ t.status = "done") :
    summaryFold today (t :: ts) (m, o)
      = summaryFold today ts
          (bump m (bucketKey t), o + (if overdueCell t.due today then 1 else 0)) := by
  simp [summaryFold, h]

theorem summaryFold_snd (today : PyDate) (ts : List TaskRec) : ∀ m o,
    (summaryFold today ts (m, o)).2
      = o + ts.countP (fun t => !(t.status == "done") && overdueCell t.due today) := by
  induction ts with
  | nil => intro m o; simp [summaryFold]
  | cons t ts ih =>
    intro m o
    by_cases h : t.status = "done"
    · rw [summaryFold_done today t ts m o h, ih, List.countP_cons]
      simp [h]
    · rw [summaryFold_live today t ts m o h, ih, List.countP_cons]
      by_cases h2 : overdueCell t.due today
      · simp only [h2, if_true]
        simp [h]
        omega
      · simp [h, h2]

theorem summaryFold_lookup (today : PyDate) (ts : List TaskRec) : ∀ m o k,
    lookupCount (summaryFold today ts (m, o)).1 k
      = lookupCount m k
        + ts.countP (fun t => !(t.status == "done") && (bucketKey t == k)) := by
  induction ts with
  | nil => intro m o k; simp [summaryFold]
  | cons t ts ih =>
    intro m o k
    by_cases h : t.status = "done"
    · rw [summaryFold_done today t ts m o h, ih, List.countP_cons]
      simp [h]
    · rw [summaryFold_live today t ts m o h, ih, List.countP_cons]
      by_cases hk : bucketKey t = k
      · rw [hk, lookupCount_bump_same]
        simp [h, hk]
        omega
      · rw [lookupCount_bump_other m (bucketKey t) k (fun he => hk he.symm)]
        simp [h, hk]

theorem summaryFold_keys_nodup (today : PyDate) (ts : List TaskRec) : ∀ m o,
    (m.map Prod.fst).Nodup → ((summaryFold today ts (m, o)).1.map Prod.fst).Nodup := by
  induction ts with
  | nil => intro m o h; simpa [summaryFold] using h
  | cons t ts ih =>
    intro m o h
    by_cases hd : t.status = "done"
    · rw [summaryFold_done today t ts m o hd]
      exact ih m o h
    · rw [summaryFold_live today t ts m o hd]
      exact ih _ _ (nodup_keys_bump m (bucketKey t) h)

theorem summaryFold_keys_mem (today : PyDate) (ts : List TaskRec) : ∀ m o k,
    k ∈ (summaryFold today ts (m, o)).1.map Prod.fst
      ↔ k ∈ m.map Prod.fst
        ∨ 0 < ts.countP (fun t => !(t.status == "done") && (bucketKey t == k)) := by
  induction ts with
  | nil => intro m o k; simp [summaryFold]
  | cons t ts ih =>
    intro m o k
    by_cases h : t.status = "done"
    · rw [summaryFold_done today t ts m o h, ih, List.countP_cons]
      simp [h]
    · rw [summaryFold_live today t ts m o h, ih, List.countP_cons]
      by_cases hk : bucketKey t = k
      · rw [mem_keys_bump]
        simp [h, hk]
        try tauto
      · rw [mem_keys_bump]
        have hk2 : ¬ (k = bucketKey t) := fun he => hk he.symm
        simp [h, hk, hk2]
        try tauto

theorem overdueCell_eq (due : String) (today : PyDate) :
    overdueCell due today
      = (!(due == "") && (date_fromisoformat due).any (fun d => PyDate.ltB d today)) := by
  by_cases h : due = ""
  · simp [overdueCell, h]
  · cases hp : date_fromisoformat due with
    | none => simp [overdueCell, h, hp]
    | some d => simp [overdueCell, h, hp]

/-- C9: the daily summary excludes done tasks, buckets the rest by assignee
with empty assignees under the sentinel bucket, counts each bucket (a pair
is a summary line exactly when its count is the number of non-done tasks of
that bucket and is positive), sorts the buckets descending by count with
ties broken by case-insensitive assignee name ascending, and reports an
overdue count equal to the number of non-done tasks whose due cell parses
as a calendar date strictly before today — unparsable or empty due cells
are skipped without aborting. -/
theorem claim_C9 (tasks : List TaskRec) (today : PyDate) :
    (send_daily_summary tasks today).2
        = tasks.countP (fun t => !(t.status == "done") && (!(t.due == "")
            && (date_fromisoformat t.due).any (fun d => PyDate.ltB d today)))
  ∧ (∀ name cnt, ((name, cnt) ∈ (send_daily_summary tasks today).1 ↔
        (cnt = tasks.countP (fun t => !(t.status == "done") && (bucketKey t == name))
          ∧ 0 < cnt)))
  ∧ (send_daily_summary tasks today).1.Sorted SummaryRel := by
  refine ⟨?_, ?_, ?_⟩
  · show (summaryFold today tasks ([], 0)).2 = _
    rw [summaryFold_snd]
    rw [Nat.zero_add]
    apply List.countP_congr
    intro t _
    rw [overdueCell_eq]
  · intro name cnt
    have hnd : ((summaryFold today tasks (([] : List (String × Nat)), 0)).1.map
        Prod.fst).Nodup :=
      summaryFold_keys_nodup today tasks [] 0 (by simp)
    show ((name, cnt)
        ∈ List.insertionSort SummaryRel (summaryFold today tasks ([], 0)).1) ↔ _
    rw [List.mem_insertionSort]
    rw [mem_iff_lookupCount _ hnd]
    rw [summaryFold_lookup, summaryFold_keys_mem]
    simp only [lookupCount, List.map_nil, List.not_mem_nil, false_or, Nat.zero_add]
    constructor
    · rintro ⟨h1, h2⟩
      exact ⟨h1.symm, by omega⟩
    · rintro ⟨h1, h2⟩
      exact ⟨h1.symm, by omega⟩
  · haveI : IsTotal (String × Nat) SummaryRel := ⟨summaryRel_total⟩
    haveI : IsTrans (String × Nat) SummaryRel := ⟨summaryRel_trans⟩
    exact List.sorted_insertionSort SummaryRel (summaryFold today tasks ([], 0)).1

end TgSheets
